import Mathlib

/-!
Verification of the DSP-Seed-Finder native search backend (`src/main.rs`)
against its natural-language specification.

The development shallowly embeds the parts of `main.rs` that the claims are
about:

* `FindState` and `FindState.add` (main.rs lines 68-100): the completion
  tracker.  Machine `i32` seeds are modelled as `ℤ` (no arithmetic in `add`
  can overflow other than `progress_end + 1` at `i32::MAX`, which no claim
  touches); the `HashSet<i32>` is a `Finset ℤ`; `SystemTime` is a `Nat`
  nanosecond timestamp and `Duration::as_secs` is division by `NSEC`.
  `SystemTime::duration_since(..).unwrap()` panics when the clock reads
  earlier than `last_notify`; a panic is modelled as the `none` value of the
  surrounding `Option`.
* `recordSeq`: the per-batch progress-update loop (main.rs lines 208-215),
  which folds `FindState.add` over a list of seeds, each call with its own
  clock reading, collecting the emitted Progress notifications in order.
  The loop runs under the state mutex, so the calls of a whole search form
  one interleaved sequence; the claims about a search quantify over that
  sequence.
* `effectiveThreads` / `spawnedWorkers` (main.rs line 140 and 165): the
  worker-count computation `concurrency.min(end - start)` (release-build
  `i32` wrapping subtraction, modelled by `wrap32`) and the spawn loop
  `for thread_idx in 0..threads`.
* `pump`: the event-pump task (main.rs lines 233-265) as a function from the
  list of received channel messages to the list of emitted wire frames.
* `intRange`, `evaluatedSeeds`, `recordedSeeds`: the worker's inner batch
  loops (main.rs lines 195-215).  `evaluatedSeeds` is the list of seeds the
  matcher actually runs on (the loop breaks at the first iteration where the
  stop flag reads true); `recordedSeeds` is the list the progress-update
  loop passes to `FindState.add`, which in the source is always the whole
  `batch_start..batch_end` range.
* `cursorAfter`, `batchOf`, `workerCursorLoop`: the shared atomic cursor
  (main.rs lines 183-192).  `fetch_update` serializes the fetches, so the
  j-th fetch overall returns `cursorAfter start j`.
-/

/-- Nanoseconds per second: `Duration::as_secs` is division by this. -/
def NSEC : Nat := 1000000000

/-- Wrapping `i32` arithmetic of a release build: reduce into
`[-2^31, 2^31)`. -/
def wrap32 (x : ℤ) : ℤ := (x + 2 ^ 31) % 2 ^ 32 - 2 ^ 31

/-- `const BATCH_SIZE: i32 = 200` (main.rs line 180). -/
def BATCH_SIZE : ℤ := 200

/-- The completion tracker `FindState` (main.rs lines 68-75). -/
structure FindState where
  progress_start : ℤ
  progress_end : ℤ
  pending_seeds : Finset ℤ
  running : ℤ
  autosave : Nat
  last_notify : Nat
deriving DecidableEq

/-- The `while self.pending_seeds.remove(&e) { e += 1 }` loop of
`FindState::add`, written with explicit fuel so that it computes; each
iteration removes one element, so `pending.card` fuel always suffices and
`advanceWhile` supplies it. -/
def advanceGo : Nat → Finset ℤ → ℤ → Finset ℤ × ℤ
  | 0, p, e => (p, e)
  | fuel + 1, p, e => if e ∈ p then advanceGo fuel (p.erase e) (e + 1) else (p, e)

/-- Starting from `e`, repeatedly remove `e` from `pending` and increment,
returning the final pending set and cursor (main.rs lines 81-85). -/
def advanceWhile (p : Finset ℤ) (e : ℤ) : Finset ℤ × ℤ := advanceGo (p.card + 1) p e

/-- `FindState::add` (main.rs lines 78-99).  The result is `none` when the
call panics (the `duration_since(..).unwrap()` with a clock reading earlier
than `last_notify`), otherwise `some` of the updated state and the optional
`(start, end)` Progress notification. -/
def FindState.add (s : FindState) (now : Nat) (seed : ℤ) :
    Option (FindState × Option (ℤ × ℤ)) :=
  if s.progress_end = seed then
    if now < s.last_notify then
      none
    else if s.autosave ≤ (now - s.last_notify) / NSEC then
      some ({ s with
                pending_seeds := (advanceWhile s.pending_seeds (s.progress_end + 1)).1,
                progress_end := (advanceWhile s.pending_seeds (s.progress_end + 1)).2,
                progress_start := (advanceWhile s.pending_seeds (s.progress_end + 1)).2,
                last_notify := now },
            some (s.progress_start, (advanceWhile s.pending_seeds (s.progress_end + 1)).2))
    else
      some ({ s with
                pending_seeds := (advanceWhile s.pending_seeds (s.progress_end + 1)).1,
                progress_end := (advanceWhile s.pending_seeds (s.progress_end + 1)).2 },
            none)
  else
    some ({ s with pending_seeds := insert seed s.pending_seeds }, none)

/-- The batch progress-update loop (main.rs lines 208-215): fold
`FindState.add` over a list of `(clock reading, seed)` pairs, collecting the
notifications that were sent, in order.  `none` when some call panicked. -/
def recordSeq : FindState → List (Nat × ℤ) → Option (FindState × List (ℤ × ℤ))
  | s, [] => some (s, [])
  | s, (now, seed) :: rest =>
    match s.add now seed with
    | none => none
    | some (s', r) =>
      match recordSeq s' rest with
      | none => none
      | some (sf, ns) => some (sf, r.toList ++ ns)

/-- The list of integers of the half-open range `[a, b)`, the order a Rust
`a..b` loop visits them. -/
def intRange (a b : ℤ) : List ℤ := (List.range (b - a).toNat).map (fun i : Nat => a + (i : ℤ))

/-- Seeds of a batch on which the matcher actually runs (main.rs lines
195-205): the inner loop breaks at the first iteration at which the stop
flag reads true, `stopAt` being the number of iterations before that. -/
def evaluatedSeeds (stopAt : Nat) (bs be : ℤ) : List ℤ := (intRange bs be).take stopAt

/-- Seeds of a batch passed to `FindState::add` by the progress-update loop
(main.rs line 210): always the whole `batch_start..batch_end` range,
regardless of where the matcher loop stopped. -/
def recordedSeeds (bs be : ℤ) : List ℤ := intRange bs be

/-- `let threads = concurrency.min(end - start)` (main.rs line 140), with
the release-build wrapping `i32` subtraction. -/
def effectiveThreads (concurrency a b : ℤ) : ℤ := min concurrency (wrap32 (b - a))

/-- The number of iterations of `for thread_idx in 0..threads`
(main.rs line 165): zero when `threads ≤ 0`. -/
def spawnedWorkers (threads : ℤ) : Nat := threads.toNat

/-- `InternalMessage` (main.rs lines 61-66). -/
inductive InternalMessage
  | result (seed : ℤ) (indexes : List Nat)
  | progress (a b : ℤ)
  | threadFinished
deriving DecidableEq

/-- `OutgoingMessage` (main.rs lines 53-59). -/
inductive OutgoingMessage
  | result (seed : ℤ) (indexes : List Nat)
  | progress (a b : ℤ)
  | done (a b : ℤ)
deriving DecidableEq

/-- The event-pump task (main.rs lines 233-265) as a function of the list of
messages received on the channel: Result and Progress messages are forwarded
as frames; the counter of finished threads increments on ThreadFinished and,
when it reaches `threads`, the tracker's final `(progress_start,
progress_end)` — passed here as `finalPs`, `finalPe`, since all workers have
finished — is sent as the Done frame and the pump breaks. -/
def pump (threads finalPs finalPe : ℤ) : ℤ → List InternalMessage → List OutgoingMessage
  | _, [] => []
  | fin, .result s i :: rest => .result s i :: pump threads finalPs finalPe fin rest
  | fin, .progress a b :: rest => .progress a b :: pump threads finalPs finalPe fin rest
  | fin, .threadFinished :: rest =>
    if fin + 1 = threads then [.done finalPs finalPe]
    else pump threads finalPs finalPe (fin + 1) rest

/-- The seed of a Result channel message, if it is one. -/
def msgResultSeed : InternalMessage → Option ℤ
  | .result s _ => some s
  | _ => none

/-- The seed of a Result wire frame, if it is one. -/
def frameResultSeed : OutgoingMessage → Option ℤ
  | .result s _ => some s
  | _ => none

/-- Whether a wire frame is a Done frame. -/
def isDone : OutgoingMessage → Bool
  | .done _ _ => true
  | _ => false

/-- How the pump forwards one non-final channel message as a wire frame. -/
def fwdFrame : InternalMessage → Option OutgoingMessage
  | .result s i => some (.result s i)
  | .progress a b => some (.progress a b)
  | .threadFinished => none

/-- The seeds of `[a, b)` on which `find_stars` returns a non-empty index
list, for a matcher `m` (a pure function of the seed, the descriptor and
compiled rules being fixed for a search). -/
def seedsMatching (m : ℤ → List Nat) (a b : ℤ) : List ℤ :=
  (intRange a b).filter (fun k => m k ≠ [])

/-- Value of the shared atomic cursor after `j` `fetch_update` operations
(main.rs lines 183-187), each adding `BATCH_SIZE` with `i32` wrap; the
atomic serializes the fetches, so the j-th fetch overall returns
`cursorAfter start j`. -/
def cursorAfter (start : ℤ) : Nat → ℤ
  | 0 => start
  | j + 1 => wrap32 (cursorAfter start j + BATCH_SIZE)

/-- The half-open seed interval processed for the `j`-th in-range fetch:
`batch_start = start + BATCH_SIZE*j`, `batch_end = min (batch_start +
BATCH_SIZE) e` (main.rs line 188). -/
def batchOf (start e : ℤ) (j : Nat) : Finset ℤ :=
  Finset.Ico (start + BATCH_SIZE * j) (min (start + BATCH_SIZE * j + BATCH_SIZE) e)

/-- The number of fetches that return a value `< e`, i.e.
`⌈(e - start) / 200⌉`. -/
def numInRange (start e : ℤ) : Nat := ((e - start).toNat + 199) / 200

/-- A single worker's fetch loop in isolation (main.rs lines 181-192 with
the matcher and stop flag elided): fetch (which always advances the cursor),
exit if the fetched value is `≥ e`; returns the final cursor value.  Fuel
makes the loop total; any fuel large enough for the loop to exit on its own
gives the loop's true result. -/
def workerCursorLoop (e : ℤ) : Nat → ℤ → ℤ
  | 0, cursor => cursor
  | fuel + 1, cursor =>
    let bs := cursor
    let c' := wrap32 (cursor + BATCH_SIZE)
    if e ≤ bs then c' else workerCursorLoop e fuel c'

/-- Whether a channel message is ThreadFinished. -/
def isTF : InternalMessage → Bool
  | .threadFinished => true
  | _ => false

/-- Invariant of recording a set `P` of pairwise-distinct seeds from `[a, ∞)`
into a tracker: the prefix has reached at least `a`, the recorded seeds are
exactly the pending ones plus the contiguous prefix `[a, progress_end)`, and
pending elements sit strictly above the prefix. -/
def FoldInv (a : ℤ) (P : Finset ℤ) (s : FindState) : Prop :=
  a ≤ s.progress_end ∧
  s.pending_seeds ∪ Finset.Ico a s.progress_end = P ∧
  ∀ x ∈ s.pending_seeds, s.progress_end < x

/-! ### Properties of the advance loop -/

lemma advanceGo_le : ∀ (fuel : Nat) (p : Finset ℤ) (e : ℤ), e ≤ (advanceGo fuel p e).2 := by
  intro fuel
  induction fuel with
  | zero => intro p e; simp [advanceGo]
  | succ n ih =>
    intro p e
    simp only [advanceGo]
    split
    · exact le_trans (by omega) (ih (p.erase e) (e + 1))
    · exact le_refl e

lemma advanceGo_fst : ∀ (fuel : Nat) (p : Finset ℤ) (e : ℤ),
    (advanceGo fuel p e).1 = p \ Finset.Ico e (advanceGo fuel p e).2 := by
  intro fuel
  induction fuel with
  | zero => intro p e; simp [advanceGo]
  | succ n ih =>
    intro p e
    simp only [advanceGo]
    split
    · rename_i hmem
      have hle := advanceGo_le n (p.erase e) (e + 1)
      rw [ih (p.erase e) (e + 1)]
      ext x
      simp only [Finset.mem_sdiff, Finset.mem_erase, Finset.mem_Ico]
      constructor
      · rintro ⟨⟨hxe, hxp⟩, hni⟩
        exact ⟨hxp, fun hi => hni ⟨by omega, hi.2⟩⟩
      · rintro ⟨hxp, hni⟩
        refine ⟨⟨fun hxe => hni ⟨by omega, by omega⟩, hxp⟩, fun hi => hni ⟨by omega, hi.2⟩⟩
    · simp

lemma advanceGo_run : ∀ (fuel : Nat) (p : Finset ℤ) (e k : ℤ),
    e ≤ k → k < (advanceGo fuel p e).2 → k ∈ p := by
  intro fuel
  induction fuel with
  | zero => intro p e k hle hlt; simp [advanceGo] at hlt; omega
  | succ n ih =>
    intro p e k hle hlt
    simp only [advanceGo] at hlt
    split at hlt
    · rename_i hmem
      rcases eq_or_lt_of_le hle with heq | hlt'
      · exact heq ▸ hmem
      · exact Finset.mem_of_mem_erase (ih (p.erase e) (e + 1) k (by omega) hlt)
    · omega

lemma advanceGo_snd_not_mem : ∀ (fuel : Nat) (p : Finset ℤ) (e : ℤ),
    p.card < fuel → (advanceGo fuel p e).2 ∉ p := by
  intro fuel
  induction fuel with
  | zero => intro p e h; omega
  | succ n ih =>
    intro p e hcard
    simp only [advanceGo]
    split
    · rename_i hmem
      have h1 : (p.erase e).card < n := by
        have h4 := Finset.card_erase_of_mem hmem
        have h5 : 0 < p.card := Finset.card_pos.2 ⟨e, hmem⟩
        omega
      have h2 := ih (p.erase e) (e + 1) h1
      have h3 := advanceGo_le n (p.erase e) (e + 1)
      intro hc
      exact h2 (Finset.mem_erase.2 ⟨by omega, hc⟩)
    · assumption

lemma advanceWhile_le (p : Finset ℤ) (e : ℤ) : e ≤ (advanceWhile p e).2 :=
  advanceGo_le _ p e

lemma advanceWhile_fst (p : Finset ℤ) (e : ℤ) :
    (advanceWhile p e).1 = p \ Finset.Ico e (advanceWhile p e).2 :=
  advanceGo_fst _ p e

lemma advanceWhile_run (p : Finset ℤ) (e k : ℤ) :
    e ≤ k → k < (advanceWhile p e).2 → k ∈ p :=
  advanceGo_run _ p e k

lemma advanceWhile_snd_not_mem (p : Finset ℤ) (e : ℤ) : (advanceWhile p e).2 ∉ p :=
  advanceGo_snd_not_mem _ p e (Nat.lt_succ_self _)

lemma advanceWhile_snd_not_mem_fst (p : Finset ℤ) (e : ℤ) :
    (advanceWhile p e).2 ∉ (advanceWhile p e).1 := by
  rw [advanceWhile_fst]
  intro h
  exact advanceWhile_snd_not_mem p e (Finset.mem_sdiff.1 h).1

/-! ### Properties of `FindState.add` -/

/-- Exhaustive case analysis of a non-panicking call to `FindState.add`. -/
lemma add_cases (s : FindState) (now : Nat) (seed : ℤ) (s' : FindState)
    (r : Option (ℤ × ℤ)) (h : s.add now seed = some (s', r)) :
    (s.progress_end ≠ seed ∧
      s' = { s with pending_seeds := insert seed s.pending_seeds } ∧ r = none) ∨
    (s.progress_end = seed ∧ s.last_notify ≤ now ∧
      s'.progress_end = (advanceWhile s.pending_seeds (seed + 1)).2 ∧
      s'.pending_seeds = (advanceWhile s.pending_seeds (seed + 1)).1 ∧
      s'.running = s.running ∧ s'.autosave = s.autosave ∧
      ((s.autosave ≤ (now - s.last_notify) / NSEC ∧
         s'.progress_start = s'.progress_end ∧ s'.last_notify = now ∧
         r = some (s.progress_start, s'.progress_end)) ∨
       (¬ s.autosave ≤ (now - s.last_notify) / NSEC ∧
         s'.progress_start = s.progress_start ∧ s'.last_notify = s.last_notify ∧
         r = none))) := by
  unfold FindState.add at h
  split_ifs at h with h1 h2 h3
  · injection h with h4
    injection h4 with hs' hr
    subst hs' hr
    right
    refine ⟨h1, by omega, by simp [h1], by simp [h1], rfl, rfl, ?_⟩
    exact Or.inl ⟨h3, by simp [h1], rfl, by simp [h1]⟩
  · injection h with h4
    injection h4 with hs' hr
    subst hs' hr
    right
    refine ⟨h1, by omega, by simp [h1], by simp [h1], rfl, rfl, ?_⟩
    exact Or.inr ⟨h3, rfl, rfl, rfl⟩
  · injection h with h4
    injection h4 with hs' hr
    subst hs' hr
    left
    exact ⟨h1, rfl, rfl⟩

lemma add_eq_none_iff (s : FindState) (now : Nat) (seed : ℤ) :
    s.add now seed = none ↔ (s.progress_end = seed ∧ now < s.last_notify) := by
  unfold FindState.add
  split_ifs with h1 h2 h3 <;> simp_all

lemma add_pe_le (s : FindState) (now : Nat) (seed : ℤ) (s' : FindState)
    (r : Option (ℤ × ℤ)) (h : s.add now seed = some (s', r)) :
    s.progress_end ≤ s'.progress_end := by
  rcases add_cases s now seed s' r h with ⟨_, rfl, _⟩ | ⟨heq, _, hpe, _⟩
  · simp
  · rw [hpe, heq]
    have := advanceWhile_le s.pending_seeds (seed + 1)
    omega

lemma add_pe_lt (s : FindState) (now : Nat) (seed : ℤ) (s' : FindState)
    (r : Option (ℤ × ℤ)) (h : s.add now seed = some (s', r))
    (heq : s.progress_end = seed) : seed < s'.progress_end := by
  rcases add_cases s now seed s' r h with ⟨hne, _, _⟩ | ⟨_, _, hpe, _⟩
  · exact absurd heq hne
  · rw [hpe]
    have := advanceWhile_le s.pending_seeds (seed + 1)
    omega

lemma add_ps_eq_of_none (s : FindState) (now : Nat) (seed : ℤ) (s' : FindState)
    (h : s.add now seed = some (s', none)) :
    s'.progress_start = s.progress_start := by
  rcases add_cases s now seed s' none h with ⟨_, rfl, _⟩ | ⟨_, _, _, _, _, _, hb⟩
  · simp
  · rcases hb with ⟨_, _, _, hr⟩ | ⟨_, hps, _, _⟩
    · exact absurd hr (by simp)
    · exact hps

lemma add_notify_eq (s : FindState) (now : Nat) (seed : ℤ) (s' : FindState)
    (x y : ℤ) (h : s.add now seed = some (s', some (x, y))) :
    x = s.progress_start ∧ y = s'.progress_end ∧
      s'.progress_start = s'.progress_end := by
  rcases add_cases s now seed s' (some (x, y)) h with ⟨_, _, hr⟩ | ⟨_, _, _, _, _, _, hb⟩
  · exact absurd hr (by simp)
  · rcases hb with ⟨_, hps, _, hr⟩ | ⟨_, _, _, hr⟩
    · obtain ⟨rfl, rfl⟩ : x = s.progress_start ∧ y = s'.progress_end := by simpa using hr
      exact ⟨rfl, rfl, hps⟩
    · exact absurd hr (by simp)

lemma add_ps_le_pe (s : FindState) (now : Nat) (seed : ℤ) (s' : FindState)
    (r : Option (ℤ × ℤ)) (h : s.add now seed = some (s', r))
    (hs : s.progress_start ≤ s.progress_end) :
    s'.progress_start ≤ s'.progress_end := by
  have hpe := add_pe_le s now seed s' r h
  rcases add_cases s now seed s' r h with ⟨_, rfl, _⟩ | ⟨_, _, _, _, _, _, hb⟩
  · simpa using hs
  · rcases hb with ⟨_, hps, _, _⟩ | ⟨_, hps, _, _⟩
    · omega
    · omega

lemma add_ps_le (s : FindState) (now : Nat) (seed : ℤ) (s' : FindState)
    (r : Option (ℤ × ℤ)) (h : s.add now seed = some (s', r))
    (hs : s.progress_start ≤ s.progress_end) :
    s.progress_start ≤ s'.progress_start := by
  have hpe := add_pe_le s now seed s' r h
  rcases add_cases s now seed s' r h with ⟨_, rfl, _⟩ | ⟨_, _, hpe', _, _, _, hb⟩
  · simp
  · rcases hb with ⟨_, hps, _, _⟩ | ⟨_, hps, _, _⟩
    · omega
    · omega

/-! ### Generic helper lemmas -/

lemma wrap32_eq_self (x : ℤ) (h1 : -(2 ^ 31) ≤ x) (h2 : x < 2 ^ 31) : wrap32 x = x := by
  unfold wrap32
  omega

lemma pump_no_done_of_nonpos (t ps pe : ℤ) (ht : t ≤ 0) :
    ∀ (msgs : List InternalMessage) (fin : ℤ), 0 ≤ fin →
      ∀ x y, OutgoingMessage.done x y ∉ pump t ps pe fin msgs := by
  intro msgs
  induction msgs with
  | nil => intro fin hfin x y h; simp [pump] at h
  | cons m rest ih =>
    intro fin hfin x y h
    cases m with
    | result s i => exact ih fin hfin x y (by simpa [pump] using h)
    | progress a b => exact ih fin hfin x y (by simpa [pump] using h)
    | threadFinished =>
      have hne : ¬(fin + 1 = t) := by omega
      rw [show pump t ps pe fin (.threadFinished :: rest) =
            if fin + 1 = t then [.done ps pe] else pump t ps pe (fin + 1) rest from rfl,
          if_neg hne] at h
      exact ih (fin + 1) (by omega) x y h

example : intRange 0 3 = [0, 1, 2] := by decide
example :
    FindState.add ⟨0, 0, ∅, 1, 0, 0⟩ 0 0 = some (⟨1, 1, ∅, 1, 0, 0⟩, some (0, 1)) := by
  decide
example :
    recordSeq ⟨0, 0, ∅, 1, 1, 0⟩ [(0, 0), (0, 1), (0, 2)] =
      some (⟨0, 3, ∅, 1, 1, 0⟩, []) := by decide
example : workerCursorLoop 1 2 0 = 400 := by decide

/-! ### Claim C1 -/

/-- Claim C1 (code bug, evaluated at the failing input): with range `[0, 3)`
(one worker, one batch) and the stop flag observed true after seed 0 was
evaluated, the matcher runs only on seed 0, yet the batch progress-update
loop still passes every seed of `batch_start..batch_end` to `FindState.add`
(main.rs line 210 iterates the full range regardless of the cancellation
break at line 196-198), so `progress_end` — and hence the Done frame's
`end` — advances to 3, counting the two skipped seeds as completed.  The
claim (and the spec) says skipped seeds are never reported as completed. -/
theorem c1_cancelled_batch_still_recorded :
    evaluatedSeeds 1 0 3 = [0] ∧
    recordedSeeds 0 3 = [0, 1, 2] ∧
    (recordSeq ⟨0, 0, ∅, 1, 1, 0⟩
        ((recordedSeeds 0 3).map (fun k => (0, k)))).map
      (fun p => p.1.progress_end) = some 3 := by decide

/-! ### Claim C2 -/

/-- Claim C2 counterexample: for the Find `range = (5, 3)` (so `end ≤
start`) with `concurrency = 1`, `threads = min 1 (3 - 5) = -2`; no worker
is spawned, the channel closes with no message ever sent, and the pump task
emits nothing at all — in particular not the single Done frame
`{start: 5, end: 5}` the claim asserts. -/
theorem c2_counterexample :
    effectiveThreads 1 5 3 = -2 ∧
    pump (effectiveThreads 1 5 3) 5 5 0 [] = [] ∧
    pump (effectiveThreads 1 5 3) 5 5 0 [] ≠ [.done 5 5] := by decide

/-- Claim C2 (amended): for `end ≤ start` (with the subtraction not
underflowing `i32`) the effective thread count is at most zero, so zero
workers are spawned and the event pump never emits a Done frame — not even
if ThreadFinished messages arrived, since the finished counter starts at 0,
only grows, and can never equal the nonpositive `threads`.  The session
emits no Done, no Progress and no Result frame. -/
theorem c2_no_done_on_empty_range (c a b : ℤ) (hba : b ≤ a)
    (hund : -(2 ^ 31) ≤ b - a) :
    spawnedWorkers (effectiveThreads c a b) = 0 ∧
    ∀ (fin : ℤ) (msgs : List InternalMessage) (x y : ℤ), 0 ≤ fin →
      OutgoingMessage.done x y ∉ pump (effectiveThreads c a b) a a fin msgs := by
  have hw : wrap32 (b - a) = b - a := wrap32_eq_self _ hund (by omega)
  have ht : effectiveThreads c a b ≤ 0 := by
    unfold effectiveThreads
    rw [hw]
    have := min_le_right c (b - a)
    omega
  refine ⟨by unfold spawnedWorkers; omega, ?_⟩
  intro fin msgs x y hfin
  exact pump_no_done_of_nonpos _ a a ht msgs fin hfin x y

theorem c2_no_done_on_empty_range_witness :
    spawnedWorkers (effectiveThreads 1 5 3) = 0 ∧
    OutgoingMessage.done 5 5 ∉ pump (effectiveThreads 1 5 3) 5 5 0 [.threadFinished] :=
  ⟨(c2_no_done_on_empty_range 1 5 3 (by decide) (by decide)).1,
   (c2_no_done_on_empty_range 1 5 3 (by decide) (by decide)).2 0 [.threadFinished] 5 5
     (by decide)⟩

/-! ### Claim C5 -/

/-- Claim C5 counterexample: for the Find `range = (0, 10)` (so `end >
start`) with `concurrency = 0`, the source spawns `min 0 10 = 0` worker
threads: there is no clamping to at least 1 anywhere in the code. -/
theorem c5_counterexample :
    (0 : ℤ) < 10 ∧ spawnedWorkers (effectiveThreads 0 0 10) = 0 := by decide

/-- Claim C5 (amended): for `end > start` (with `end - start` fitting in
`i32`), the number of worker threads spawned is `min concurrency (end -
start)` clamped below at zero (the `0..threads` loop runs zero times for a
nonpositive bound); a `concurrency ≤ 0` therefore spawns no workers, with
no clamping to 1. -/
theorem c5_thread_count (c a b : ℤ) (h1 : a < b) (h2 : b - a < 2 ^ 31) :
    spawnedWorkers (effectiveThreads c a b) = (min c (b - a)).toNat := by
  unfold spawnedWorkers effectiveThreads
  rw [wrap32_eq_self (b - a) (by omega) h2]

theorem c5_thread_count_witness :
    (0 : ℤ) < 10 ∧ spawnedWorkers (effectiveThreads 0 0 10) = (min 0 (10 - 0) : ℤ).toNat :=
  ⟨by decide, c5_thread_count 0 0 10 (by decide) (by decide)⟩

/-! ### Claim C9 -/

/-- Claim C9 counterexample: `FindState::add` can return normally with the
clock read earlier than `last_notify`: when the seed does not equal
`progress_end` the insert branch never reads the clock at all.  Here
`last_notify = 5`, the clock reads 0, the seed is 7 and `progress_end` is
0, and the call returns normally. -/
theorem c9_counterexample :
    (0 : Nat) < FindState.last_notify ⟨0, 0, ∅, 1, 0, 5⟩ ∧
    (FindState.add ⟨0, 0, ∅, 1, 0, 5⟩ 0 7).isSome = true := by decide

/-- Claim C9 (amended): `FindState::add` panics exactly when the seed
equals `progress_end` (entering the branch that computes
`SystemTime::now().duration_since(last_notify).unwrap()`) and the
wall-clock reading is earlier than `last_notify`; in every other case —
including a backwards-stepped clock with a non-advancing seed, which never
reads the clock — it returns normally. -/
theorem c9_panic_characterization (s : FindState) (now : Nat) (seed : ℤ) :
    s.add now seed = none ↔ (s.progress_end = seed ∧ now < s.last_notify) :=
  add_eq_none_iff s now seed

/-! ### Claim C4 -/

/-- Claim C4 counterexample: recording the batch `[0, 1]` from the initial
tracker state with `autosave = 0` yields TWO Progress notifications, one per
prefix-advancing `add` call (the throttle is checked inside `add`, per
seed, not once after the batch), refuting "at most one Progress
notification per batch"; and recording the non-empty batch `[5]` (which
does not advance the prefix) with `autosave = 0` yields NO notification,
refuting "when autosave_secs == 0 every non-empty batch yields exactly one
Progress notification". -/
theorem c4_counterexample :
    (recordSeq ⟨0, 0, ∅, 1, 0, 0⟩ [(0, 0), (0, 1)]).map (fun p => p.2) =
      some [(0, 1), (1, 2)] ∧
    (recordSeq ⟨0, 0, ∅, 1, 0, 0⟩ [(0, 5)]).map (fun p => p.2) = some [] := by
  decide

/-- Claim C4 (amended): notifications are decided per `add` call, not per
batch: a non-panicking call to `FindState::add` returns a Progress
notification exactly when the seed equals `progress_end` (the call advances
the contiguous prefix) and `now - last_notify`, in whole seconds, is at
least `autosave`; the notification pairs the old `progress_start` with the
new `progress_end` and sets `progress_start = progress_end`.  A batch
therefore yields one notification per throttle-passing prefix-advancing
seed — possibly many, and none when no seed advances the prefix, whatever
`autosave` is. -/
theorem c4_per_seed_notification (s : FindState) (now : Nat) (seed : ℤ)
    (h : s.last_notify ≤ now) :
    (s.add now seed).elim False (fun p =>
      (p.2.isSome ↔
        (s.progress_end = seed ∧ s.autosave ≤ (now - s.last_notify) / NSEC)) ∧
      ∀ x y, p.2 = some (x, y) →
        x = s.progress_start ∧ y = p.1.progress_end ∧
          p.1.progress_start = p.1.progress_end) := by
  obtain ⟨s', r, hadd⟩ : ∃ s' r, s.add now seed = some (s', r) := by
    cases hopt : s.add now seed with
    | none =>
      rw [add_eq_none_iff] at hopt
      omega
    | some p =>
      obtain ⟨s', r⟩ := p
      exact ⟨s', r, rfl⟩
  rw [hadd]
  dsimp only [Option.elim]
  rcases add_cases s now seed s' r hadd with ⟨hne, _, hr⟩ | ⟨heq, _, _, _, _, _, hb⟩
  · subst hr
    exact ⟨by simp [hne], fun x y hxy => by simp at hxy⟩
  · rcases hb with ⟨hth, hps, _, hr⟩ | ⟨hth, _, _, hr⟩
    · subst hr
      refine ⟨by simp [heq, hth], ?_⟩
      intro x y hxy
      obtain ⟨rfl, rfl⟩ : s.progress_start = x ∧ s'.progress_end = y := by
        simpa using hxy
      exact ⟨rfl, rfl, hps⟩
    · subst hr
      exact ⟨by simp [heq, hth], fun x y hxy => by simp at hxy⟩

theorem c4_per_seed_notification_witness :
    FindState.last_notify ⟨0, 0, ∅, 1, 0, 0⟩ ≤ 0 ∧
    (FindState.add ⟨0, 0, ∅, 1, 0, 0⟩ 0 0).elim False (fun p =>
      (p.2.isSome ↔
        (FindState.progress_end ⟨0, 0, ∅, 1, 0, 0⟩ = 0 ∧
          FindState.autosave ⟨0, 0, ∅, 1, 0, 0⟩ ≤
            (0 - FindState.last_notify ⟨0, 0, ∅, 1, 0, 0⟩) / NSEC)) ∧
      ∀ x y, p.2 = some (x, y) →
        x = FindState.progress_start ⟨0, 0, ∅, 1, 0, 0⟩ ∧ y = p.1.progress_end ∧
          p.1.progress_start = p.1.progress_end) :=
  ⟨by decide, c4_per_seed_notification ⟨0, 0, ∅, 1, 0, 0⟩ 0 0 (by decide)⟩

/-! ### Claim C3, the counterexample -/

/-- Claim C3 counterexample: recording the batch `[0]` once from the
initial tracker state absorbs seed 0 into the prefix (`progress_end`
becomes 1, `pending_seeds` stays empty); recording the same batch again
re-inserts seed 0 into `pending_seeds` (now `{0}`), because the replayed
seed no longer equals `progress_end` and the else-branch of `add` inserts
unconditionally.  The tracker state after the second application differs
from the state after the first, refuting idempotence. -/
theorem c3_counterexample :
    ((recordSeq ⟨0, 0, ∅, 1, 1, 0⟩ [(0, 0)]).bind
        (fun p => recordSeq p.1 [(0, 0)])).map (fun p => p.1.pending_seeds) =
      some {0} ∧
    (recordSeq ⟨0, 0, ∅, 1, 1, 0⟩ [(0, 0)]).map (fun p => p.1.pending_seeds) =
      some ∅ ∧
    ({0} : Finset ℤ) ≠ ∅ := by decide

/-! ### Claim C7 -/

/-- Claim C7 (confirmed): the tracker is mutated only under its mutex and
Progress messages are sent to the FIFO channel while that mutex is held, so
the Progress frames of a search reach the wire in the order of the `add`
calls that produced them, and the Done frame — built from the final
`(progress_start, progress_end)` — follows them all.  Over any such
serialized sequence of `add` calls from a state with `progress_start ≤
progress_end`, the emitted Progress pairs followed by the final Done pair
form a chain: the first frame's start is the initial `progress_start`
(which a Find initializes to `range.start`), each frame's start equals the
previous frame's end, starts and ends are non-decreasing, and every frame
has start ≤ end — the frames tile the completed prefix without gap or
overlap. -/
theorem c7_progress_frames_tile (s : FindState) (ops : List (Nat × ℤ))
    (sf : FindState) (ns : List (ℤ × ℤ))
    (hps : s.progress_start ≤ s.progress_end)
    (hrec : recordSeq s ops = some (sf, ns)) :
    (ns ++ [(sf.progress_start, sf.progress_end)]).head?.map Prod.fst =
      some s.progress_start ∧
    List.Chain' (fun f g => f.2 = g.1 ∧ f.1 ≤ g.1 ∧ f.2 ≤ g.2)
      (ns ++ [(sf.progress_start, sf.progress_end)]) ∧
    ∀ f ∈ ns ++ [(sf.progress_start, sf.progress_end)], f.1 ≤ f.2 := by
  induction ops generalizing s ns with
  | nil =>
    obtain ⟨rfl, rfl⟩ : s = sf ∧ ([] : List (ℤ × ℤ)) = ns := by
      simpa [recordSeq] using hrec
    refine ⟨by simp, by simp, ?_⟩
    intro f hf
    simp only [List.nil_append, List.mem_singleton] at hf
    subst hf
    exact hps
  | cons op rest ih =>
    obtain ⟨now, seed⟩ := op
    cases hadd : s.add now seed with
    | none =>
      simp only [recordSeq, hadd] at hrec
      exact Option.noConfusion hrec
    | some p =>
      obtain ⟨s1, r⟩ := p
      cases hrec2 : recordSeq s1 rest with
      | none =>
        simp only [recordSeq, hadd, hrec2] at hrec
        exact Option.noConfusion hrec
      | some q =>
        obtain ⟨sf', ns'⟩ := q
        simp only [recordSeq, hadd, hrec2, Option.some.injEq, Prod.mk.injEq] at hrec
        obtain ⟨rfl, rfl⟩ := hrec
        have hps1 : s1.progress_start ≤ s1.progress_end :=
          add_ps_le_pe s now seed s1 r hadd hps
        have hpele : s.progress_end ≤ s1.progress_end := add_pe_le s now seed s1 r hadd
        obtain ⟨ihh, ihc, ihm⟩ := ih s1 ns' hps1 hrec2
        obtain ⟨h0, L', hL⟩ : ∃ h0 L',
            ns' ++ [(sf'.progress_start, sf'.progress_end)] = h0 :: L' :=
          List.exists_cons_of_ne_nil (by simp)
        have hh0 : h0.1 = s1.progress_start := by
          have hcopy := ihh
          rw [hL] at hcopy
          simpa using hcopy
        have hh02 : h0.1 ≤ h0.2 := ihm h0 (by rw [hL]; exact List.mem_cons_self h0 L')
        cases r with
        | none =>
          have hpseq : s1.progress_start = s.progress_start :=
            add_ps_eq_of_none s now seed s1 hadd
          simp only [Option.toList, List.nil_append]
          exact ⟨by rw [ihh, hpseq], ihc, ihm⟩
        | some xy =>
          obtain ⟨x, y⟩ := xy
          obtain ⟨hx, hy, hpe1⟩ := add_notify_eq s now seed s1 x y hadd
          simp only [Option.toList, List.cons_append, List.nil_append]
          refine ⟨by simp [hx], ?_, ?_⟩
          · rw [hL, List.chain'_cons]
            refine ⟨⟨?_, ?_, ?_⟩, by rw [← hL]; exact ihc⟩
            · show y = h0.1
              omega
            · show x ≤ h0.1
              omega
            · show y ≤ h0.2
              omega
          · intro f hf
            rcases List.mem_cons.1 hf with hf | hf
            · subst hf
              simp only
              rw [hx, hy]
              omega
            · exact ihm f hf

theorem c7_progress_frames_tile_witness :
    recordSeq ⟨0, 0, ∅, 1, 0, 0⟩ [(0, 0), (0, 1)] =
      some (⟨2, 2, ∅, 1, 0, 0⟩, [(0, 1), (1, 2)]) ∧
    List.Chain' (fun f g => f.2 = g.1 ∧ f.1 ≤ g.1 ∧ f.2 ≤ g.2)
      ([((0 : ℤ), (1 : ℤ)), (1, 2)] ++ [(2, 2)]) :=
  ⟨by decide,
   (c7_progress_frames_tile ⟨0, 0, ∅, 1, 0, 0⟩ [(0, 0), (0, 1)] ⟨2, 2, ∅, 1, 0, 0⟩
       [(0, 1), (1, 2)] (by decide) (by decide)).2.1⟩

/-! ### Claim C8 -/

/-- Claim C8 (confirmed): under the precondition that each seed is recorded
at most once — rendered on a single call as: the recorded seed is not below
`progress_end` (it has not been absorbed into the prefix before) — a
non-panicking call to `FindState::add` preserves the tracker invariants:
every element of `pending_seeds` stays strictly greater than
`progress_end`; `progress_start ≤ progress_end`; both are non-decreasing;
and when the seed equals `progress_end` the prefix advances past the whole
contiguous run present in `pending_seeds`: the new `progress_end` is
strictly larger, is itself not in the old pending set, every integer
strictly between the seed and the new `progress_end` was pending, and
exactly that run is removed from the pending set. -/
theorem c8_add_preserves_invariants (s : FindState) (now : Nat) (seed : ℤ)
    (s' : FindState) (r : Option (ℤ × ℤ))
    (hpend : ∀ x ∈ s.pending_seeds, s.progress_end < x)
    (hple : s.progress_start ≤ s.progress_end)
    (hfresh : s.progress_end ≤ seed)
    (hadd : s.add now seed = some (s', r)) :
    (∀ x ∈ s'.pending_seeds, s'.progress_end < x) ∧
    s'.progress_start ≤ s'.progress_end ∧
    s.progress_start ≤ s'.progress_start ∧
    s.progress_end ≤ s'.progress_end ∧
    (s.progress_end = seed →
      seed < s'.progress_end ∧
      s'.progress_end ∉ s.pending_seeds ∧
      (∀ k, seed < k → k < s'.progress_end → k ∈ s.pending_seeds) ∧
      s'.pending_seeds = s.pending_seeds \ Finset.Ico (seed + 1) s'.progress_end) := by
  refine ⟨?_, add_ps_le_pe s now seed s' r hadd hple,
    add_ps_le s now seed s' r hadd hple, add_pe_le s now seed s' r hadd, ?_⟩
  · rcases add_cases s now seed s' r hadd with ⟨hne, rfl, _⟩ | ⟨heq, _, hpe, hpd, _⟩
    · intro x hx
      have hx' : x = seed ∨ x ∈ s.pending_seeds := by simpa using hx
      show s.progress_end < x
      rcases hx' with rfl | hx'
      · omega
      · exact hpend x hx'
    · intro x hx
      rw [hpd, advanceWhile_fst] at hx
      obtain ⟨hxp, hxni⟩ := Finset.mem_sdiff.1 hx
      have hx1 : s.progress_end < x := hpend x hxp
      have hx3 : x ≠ (advanceWhile s.pending_seeds (seed + 1)).2 :=
        fun hc => advanceWhile_snd_not_mem s.pending_seeds (seed + 1) (hc ▸ hxp)
      simp only [Finset.mem_Ico, not_and, not_lt] at hxni
      have hxn2 : (advanceWhile s.pending_seeds (seed + 1)).2 ≤ x := hxni (by omega)
      rw [hpe]
      omega
  · intro heq
    rcases add_cases s now seed s' r hadd with ⟨hne, _, _⟩ | ⟨_, _, hpe, hpd, _⟩
    · exact absurd heq hne
    · have hlt : seed < s'.progress_end := add_pe_lt s now seed s' r hadd heq
      refine ⟨hlt, ?_, ?_, ?_⟩
      · rw [hpe]
        exact advanceWhile_snd_not_mem s.pending_seeds (seed + 1)
      · intro k hk1 hk2
        rw [hpe] at hk2
        exact advanceWhile_run s.pending_seeds (seed + 1) k (by omega) hk2
      · rw [hpd, hpe]
        exact advanceWhile_fst s.pending_seeds (seed + 1)

theorem c8_add_preserves_invariants_witness :
    FindState.add ⟨0, 0, {1, 2}, 1, 1, 0⟩ 0 0 = some (⟨0, 3, ∅, 1, 1, 0⟩, none) ∧
    ∀ x ∈ FindState.pending_seeds ⟨0, 3, ∅, 1, 1, 0⟩,
      FindState.progress_end ⟨0, 3, ∅, 1, 1, 0⟩ < x :=
  ⟨by decide,
   (c8_add_preserves_invariants ⟨0, 0, {1, 2}, 1, 1, 0⟩ 0 0 ⟨0, 3, ∅, 1, 1, 0⟩ none
       (by decide) (by decide) (by decide) (by decide)).1⟩

/-! ### Claim C3, the amended replay property -/

lemma add_seed_absorbed (s : FindState) (now : Nat) (seed : ℤ) (s' : FindState)
    (r : Option (ℤ × ℤ)) (h : s.add now seed = some (s', r)) :
    seed < s'.progress_end ∨ seed ∈ s'.pending_seeds := by
  rcases add_cases s now seed s' r h with ⟨hne, rfl, _⟩ | ⟨heq, _, _, _, _⟩
  · right
    simp
  · exact Or.inl (add_pe_lt s now seed s' r h heq)

lemma add_absorbed_mono (s : FindState) (now : Nat) (sd : ℤ) (s' : FindState)
    (r : Option (ℤ × ℤ)) (h : s.add now sd = some (s', r)) (x : ℤ)
    (hx : x < s.progress_end ∨ x ∈ s.pending_seeds) :
    x < s'.progress_end ∨ x ∈ s'.pending_seeds := by
  rcases hx with hx | hx
  · exact Or.inl (lt_of_lt_of_le hx (add_pe_le s now sd s' r h))
  · rcases add_cases s now sd s' r h with ⟨_, rfl, _⟩ | ⟨heq, _, hpe, hpd, _⟩
    · right
      simp [hx]
    · by_cases hxi : x ∈ Finset.Ico (sd + 1) s'.progress_end
      · exact Or.inl (Finset.mem_Ico.1 hxi).2
      · right
        rw [hpd, advanceWhile_fst]
        rw [hpe] at hxi
        exact Finset.mem_sdiff.2 ⟨hx, hxi⟩

lemma add_pe_not_mem (s : FindState) (now : Nat) (sd : ℤ) (s' : FindState)
    (r : Option (ℤ × ℤ)) (h : s.add now sd = some (s', r))
    (hinv : s.progress_end ∉ s.pending_seeds) :
    s'.progress_end ∉ s'.pending_seeds := by
  rcases add_cases s now sd s' r h with ⟨hne, rfl, _⟩ | ⟨heq, _, hpe, hpd, _⟩
  · show s.progress_end ∉ insert sd s.pending_seeds
    simp only [Finset.mem_insert, not_or]
    exact ⟨hne, hinv⟩
  · rw [hpe, hpd]
    exact advanceWhile_snd_not_mem_fst s.pending_seeds (sd + 1)

lemma recordSeq_absorbed_mono (ops : List (Nat × ℤ)) :
    ∀ (s sf : FindState) (ns : List (ℤ × ℤ)), recordSeq s ops = some (sf, ns) →
      ∀ x : ℤ, (x < s.progress_end ∨ x ∈ s.pending_seeds) →
        x < sf.progress_end ∨ x ∈ sf.pending_seeds := by
  induction ops with
  | nil =>
    intro s sf ns h x hx
    obtain ⟨rfl, rfl⟩ : s = sf ∧ ([] : List (ℤ × ℤ)) = ns := by
      simpa [recordSeq] using h
    exact hx
  | cons op rest ih =>
    obtain ⟨now, sd⟩ := op
    intro s sf ns h x hx
    cases hadd : s.add now sd with
    | none =>
      simp only [recordSeq, hadd] at h
      exact Option.noConfusion h
    | some p =>
      obtain ⟨s1, r⟩ := p
      cases hrec2 : recordSeq s1 rest with
      | none =>
        simp only [recordSeq, hadd, hrec2] at h
        exact Option.noConfusion h
      | some q =>
        obtain ⟨sf', ns'⟩ := q
        simp only [recordSeq, hadd, hrec2, Option.some.injEq, Prod.mk.injEq] at h
        obtain ⟨rfl, rfl⟩ := h
        exact ih s1 sf' ns' hrec2 x (add_absorbed_mono s now sd s1 r hadd x hx)

lemma recordSeq_absorbed (ops : List (Nat × ℤ)) :
    ∀ (s sf : FindState) (ns : List (ℤ × ℤ)), recordSeq s ops = some (sf, ns) →
      ∀ sd ∈ ops.map Prod.snd, sd < sf.progress_end ∨ sd ∈ sf.pending_seeds := by
  induction ops with
  | nil => intro s sf ns h sd hsd; simp at hsd
  | cons op rest ih =>
    obtain ⟨now, sd0⟩ := op
    intro s sf ns h sd hsd
    cases hadd : s.add now sd0 with
    | none =>
      simp only [recordSeq, hadd] at h
      exact Option.noConfusion h
    | some p =>
      obtain ⟨s1, r⟩ := p
      cases hrec2 : recordSeq s1 rest with
      | none =>
        simp only [recordSeq, hadd, hrec2] at h
        exact Option.noConfusion h
      | some q =>
        obtain ⟨sf', ns'⟩ := q
        simp only [recordSeq, hadd, hrec2, Option.some.injEq, Prod.mk.injEq] at h
        obtain ⟨rfl, rfl⟩ := h
        rcases (by simpa using hsd : sd = sd0 ∨ ∃ a, (a, sd) ∈ rest) with rfl | ⟨a, hsd'⟩
        · exact recordSeq_absorbed_mono rest s1 sf' ns' hrec2 sd
            (add_seed_absorbed s now sd s1 r hadd)
        · refine ih s1 sf' ns' hrec2 sd ?_
          simp only [List.mem_map]
          exact ⟨(a, sd), hsd', rfl⟩

lemma recordSeq_pe_not_mem (ops : List (Nat × ℤ)) :
    ∀ (s sf : FindState) (ns : List (ℤ × ℤ)), recordSeq s ops = some (sf, ns) →
      s.progress_end ∉ s.pending_seeds → sf.progress_end ∉ sf.pending_seeds := by
  induction ops with
  | nil =>
    intro s sf ns h hinv
    obtain ⟨rfl, rfl⟩ : s = sf ∧ ([] : List (ℤ × ℤ)) = ns := by
      simpa [recordSeq] using h
    exact hinv
  | cons op rest ih =>
    obtain ⟨now, sd⟩ := op
    intro s sf ns h hinv
    cases hadd : s.add now sd with
    | none =>
      simp only [recordSeq, hadd] at h
      exact Option.noConfusion h
    | some p =>
      obtain ⟨s1, r⟩ := p
      cases hrec2 : recordSeq s1 rest with
      | none =>
        simp only [recordSeq, hadd, hrec2] at h
        exact Option.noConfusion h
      | some q =>
        obtain ⟨sf', ns'⟩ := q
        simp only [recordSeq, hadd, hrec2, Option.some.injEq, Prod.mk.injEq] at h
        obtain ⟨rfl, rfl⟩ := h
        exact ih s1 sf' ns' hrec2 (add_pe_not_mem s now sd s1 r hadd hinv)

/-- A stale seed (already absorbed into the prefix or already pending) hits
the insert branch of `add` unconditionally: no clock read, no notification,
no change of the progress fields. -/
lemma add_stale (t : FindState) (now : Nat) (sd : ℤ)
    (hsd : sd < t.progress_end ∨ sd ∈ t.pending_seeds)
    (hinv : t.progress_end ∉ t.pending_seeds) :
    t.add now sd = some ({ t with pending_seeds := insert sd t.pending_seeds }, none) := by
  have hne : ¬ t.progress_end = sd := by
    rcases hsd with h | h
    · omega
    · intro hc
      exact hinv (hc ▸ h)
  unfold FindState.add
  rw [if_neg hne]

lemma recordSeq_replay (s1 : FindState) :
    ∀ (ops2 : List (Nat × ℤ)) (t : FindState),
      (∀ sd ∈ ops2.map Prod.snd, sd < s1.progress_end ∨ sd ∈ s1.pending_seeds) →
      t.progress_start = s1.progress_start → t.progress_end = s1.progress_end →
      t.progress_end ∉ t.pending_seeds →
      s1.pending_seeds ⊆ t.pending_seeds →
      (∀ x ∈ t.pending_seeds, x ∈ s1.pending_seeds ∨ x < s1.progress_end) →
      ∃ t', recordSeq t ops2 = some (t', []) ∧
        t'.progress_start = s1.progress_start ∧ t'.progress_end = s1.progress_end ∧
        s1.pending_seeds ⊆ t'.pending_seeds ∧
        ∀ x ∈ t'.pending_seeds, x ∈ s1.pending_seeds ∨ x < s1.progress_end := by
  intro ops2
  induction ops2 with
  | nil =>
    intro t habs hps hpe hinv hsub hbound
    exact ⟨t, by simp [recordSeq], hps, hpe, hsub, hbound⟩
  | cons op rest ih =>
    obtain ⟨now, sd⟩ := op
    intro t habs hps hpe hinv hsub hbound
    have hsd : sd < s1.progress_end ∨ sd ∈ s1.pending_seeds :=
      habs sd (by simp)
    have hsdt : sd < t.progress_end ∨ sd ∈ t.pending_seeds := by
      rcases hsd with h | h
      · exact Or.inl (hpe ▸ h)
      · exact Or.inr (hsub h)
    have hadd := add_stale t now sd hsdt hinv
    have hinv' : t.progress_end ∉ insert sd t.pending_seeds := by
      simp only [Finset.mem_insert, not_or]
      refine ⟨?_, hinv⟩
      rcases hsdt with h | h
      · omega
      · intro hc
        exact hinv (hc ▸ h)
    obtain ⟨t', h1, h2, h3, h4, h5⟩ := ih { t with pending_seeds := insert sd t.pending_seeds }
      (fun x hx => habs x (by simpa using Or.inr (by simpa using hx)))
      (by simpa using hps) (by simpa using hpe) (by simpa using hinv')
      (fun x hx => Finset.mem_insert_of_mem (hsub hx))
      (by
        intro x hx
        rcases Finset.mem_insert.1 (by simpa using hx) with rfl | hx'
        · rcases hsd with h | h
          · exact Or.inr h
          · exact Or.inl h
        · exact hbound x hx')
    refine ⟨t', ?_, h2, h3, h4, h5⟩
    simp only [recordSeq, hadd, h1, Option.toList]
    simp

/-- Claim C3 (amended): replaying the same seed list leaves `progress_start`
and `progress_end` exactly as after the first application and emits no
notification, but `pending_seeds` is not left identical: the replayed seeds
absorbed by the first application are re-inserted as inert elements (each
new element of pending is either an original pending element or lies
strictly below `progress_end`), because the else branch of `add` inserts
unconditionally.  In particular replay never panics: every replayed call
takes the clock-free insert branch. -/
theorem c3_replay_preserves_progress (s : FindState) (ops ops2 : List (Nat × ℤ))
    (s1 : FindState) (ns1 : List (ℤ × ℤ))
    (hinv : s.progress_end ∉ s.pending_seeds)
    (hrec : recordSeq s ops = some (s1, ns1))
    (hsame : ops2.map Prod.snd = ops.map Prod.snd) :
    ∃ s2, recordSeq s1 ops2 = some (s2, []) ∧
      s2.progress_start = s1.progress_start ∧ s2.progress_end = s1.progress_end ∧
      s1.pending_seeds ⊆ s2.pending_seeds ∧
      ∀ x ∈ s2.pending_seeds, x ∈ s1.pending_seeds ∨ x < s1.progress_end := by
  have habs : ∀ sd ∈ ops2.map Prod.snd, sd < s1.progress_end ∨ sd ∈ s1.pending_seeds := by
    rw [hsame]
    exact recordSeq_absorbed ops s s1 ns1 hrec
  have hinv1 : s1.progress_end ∉ s1.pending_seeds :=
    recordSeq_pe_not_mem ops s s1 ns1 hrec hinv
  exact recordSeq_replay s1 ops2 s1 habs rfl rfl hinv1 (Finset.Subset.refl _)
    (fun x hx => Or.inl hx)

theorem c3_replay_preserves_progress_witness :
    recordSeq ⟨0, 0, ∅, 1, 1, 0⟩ [(0, 0)] = some (⟨0, 1, ∅, 1, 1, 0⟩, []) ∧
    ∃ s2, recordSeq ⟨0, 1, ∅, 1, 1, 0⟩ [(7, 0)] = some (s2, []) ∧
      s2.progress_start = FindState.progress_start ⟨0, 1, ∅, 1, 1, 0⟩ ∧
      s2.progress_end = FindState.progress_end ⟨0, 1, ∅, 1, 1, 0⟩ ∧
      FindState.pending_seeds ⟨0, 1, ∅, 1, 1, 0⟩ ⊆ s2.pending_seeds ∧
      ∀ x ∈ s2.pending_seeds,
        x ∈ FindState.pending_seeds ⟨0, 1, ∅, 1, 1, 0⟩ ∨
          x < FindState.progress_end ⟨0, 1, ∅, 1, 1, 0⟩ :=
  ⟨by decide,
   c3_replay_preserves_progress ⟨0, 0, ∅, 1, 1, 0⟩ [(0, 0)] [(7, 0)]
     ⟨0, 1, ∅, 1, 1, 0⟩ [] (by decide) (by decide) (by decide)⟩

/-! ### Claim C10 -/

/-- Claim C10 counterexample: a single worker on range `[0, 1)`.  The first
fetch returns 0 (cursor becomes 200) and the batch `[0, 1)` is processed;
the looping worker's second fetch returns 200 ≥ 1 and it exits — but that
exit fetch also advanced the cursor, to 400.  The cursor over-advances past
`end` by 399, which exceeds the claimed bound of 200 per worker
(200 · 1 = 200).  (The extra fuel value shows the loop had already
terminated on its own.) -/
theorem c10_counterexample :
    workerCursorLoop 1 2 0 = 400 ∧ workerCursorLoop 1 9 0 = 400 ∧
    ¬(workerCursorLoop 1 2 0 - 1 ≤ 200 * 1) := by decide

/-- Claim C10 (amended): the fetches are serialized by the atomic, so the
j-th fetch overall returns `cursorAfter start j`; an execution is described
by the list `tags` of which worker performed each fetch.  Fetch j is
in-range (`< end`) exactly for `j < numInRange start end`, and each worker
exits right after its first out-of-range fetch, so in a completed run the
tail of `tags` from position `numInRange start end` contains each worker
exactly once (`hnd`, `hall`).  Then: the in-range batches are pairwise
disjoint, their union is exactly `[start, end)`; under the precondition
`start ≥ -2^31` and `end + 200·(workers+1) ≤ i32::MAX`, no fetch wraps
(`cursorAfter` stays affine); the total number of fetches is
`numInRange start end + workers`; and the final cursor over-advances past
`end` by at most `200·workers + 199` — i.e. strictly less than
`200·(workers+1)`, but NOT by at most `200·workers` as claimed. -/
theorem c10_batch_partition (start e : ℤ) (W : Nat) (tags : List (Fin W))
    (hW : 1 ≤ W) (hse : start ≤ e) (hlo : -(2 ^ 31) ≤ start)
    (hhi : e + 200 * ((W : ℤ) + 1) ≤ 2 ^ 31 - 1)
    (hnd : (tags.drop (numInRange start e)).Nodup)
    (hall : ∀ w : Fin W, w ∈ tags.drop (numInRange start e)) :
    (∀ i j : Nat, i ≠ j → Disjoint (batchOf start e i) (batchOf start e j)) ∧
    (Finset.range (numInRange start e)).biUnion (batchOf start e) =
      Finset.Ico start e ∧
    tags.length = numInRange start e + W ∧
    (∀ j : Nat, j ≤ numInRange start e + W →
      cursorAfter start j = start + 200 * (j : ℤ)) ∧
    cursorAfter start tags.length - e ≤ 200 * (W : ℤ) + 199 := by
  have hk : numInRange start e = ((e - start).toNat + 199) / 200 := rfl
  have hA : start + 200 * ((numInRange start e : Nat) : ℤ) ≤ e + 199 := by
    rw [hk]
    omega
  have hB : e ≤ start + 200 * ((numInRange start e : Nat) : ℤ) := by
    rw [hk]
    omega
  have hlen : (tags.drop (numInRange start e)).length = W := by
    have h1 : (tags.drop (numInRange start e)).length ≤ W := by
      calc (tags.drop (numInRange start e)).length
          = (tags.drop (numInRange start e)).toFinset.card :=
            (List.toFinset_card_of_nodup hnd).symm
        _ ≤ Fintype.card (Fin W) := Finset.card_le_univ _
        _ = W := Fintype.card_fin W
    have h2 : W ≤ (tags.drop (numInRange start e)).length := by
      have hsub : (Finset.univ : Finset (Fin W)) ⊆
          (tags.drop (numInRange start e)).toFinset := by
        intro w _
        exact List.mem_toFinset.2 (hall w)
      have hc := Finset.card_le_card hsub
      rwa [List.toFinset_card_of_nodup hnd, Finset.card_univ, Fintype.card_fin] at hc
    omega
  have htl : tags.length = numInRange start e + W := by
    have hdrop := List.length_drop (numInRange start e) tags
    rw [hdrop] at hlen
    by_cases hcase : numInRange start e ≤ tags.length
    · omega
    · omega
  have key : ∀ j : Nat, j ≤ numInRange start e + W →
      cursorAfter start j = start + 200 * (j : ℤ) := by
    intro j
    induction j with
    | zero => intro _; simp [cursorAfter]
    | succ m ihm =>
      intro hj
      have hm := ihm (by omega)
      have hbs : BATCH_SIZE = 200 := rfl
      show wrap32 (cursorAfter start m + BATCH_SIZE) = start + 200 * ((m + 1 : Nat) : ℤ)
      rw [hm, hbs, wrap32_eq_self (start + 200 * (m : ℤ) + 200) (by omega) (by omega)]
      push_cast
      ring
  refine ⟨?_, ?_, htl, key, ?_⟩
  · intro i j hij
    rw [Finset.disjoint_left]
    intro x hxi hxj
    simp only [batchOf, Finset.mem_Ico, lt_min_iff] at hxi hxj
    have hbs : BATCH_SIZE = 200 := rfl
    rw [hbs] at hxi hxj
    omega
  · ext x
    simp only [Finset.mem_biUnion, Finset.mem_range, batchOf, Finset.mem_Ico, lt_min_iff]
    have hbs : BATCH_SIZE = 200 := rfl
    rw [hbs]
    constructor
    · rintro ⟨j, hj, h1, h2, h3⟩
      constructor
      · omega
      · omega
    · rintro ⟨hx1, hx2⟩
      refine ⟨((x - start).toNat) / 200, ?_, ?_, ?_, ?_⟩
      · rw [hk]
        omega
      · omega
      · omega
      · omega
  · rw [key tags.length (by omega), htl]
    push_cast
    omega

theorem c10_batch_partition_witness :
    (List.drop (numInRange 0 1) ([0, 0] : List (Fin 1))).Nodup ∧
    (0 : Fin 1) ∈ List.drop (numInRange 0 1) ([0, 0] : List (Fin 1)) ∧
    (Finset.range (numInRange 0 1)).biUnion (batchOf 0 1) = Finset.Ico 0 1 ∧
    ([0, 0] : List (Fin 1)).length = numInRange 0 1 + 1 ∧
    cursorAfter 0 ([0, 0] : List (Fin 1)).length - 1 ≤ 200 * ((1 : Nat) : ℤ) + 199 :=
  ⟨by decide, by decide,
   (c10_batch_partition 0 1 1 [0, 0] (by decide) (by decide) (by decide) (by decide)
       (by decide) (by decide)).2.1,
   (c10_batch_partition 0 1 1 [0, 0] (by decide) (by decide) (by decide) (by decide)
       (by decide) (by decide)).2.2.1,
   (c10_batch_partition 0 1 1 [0, 0] (by decide) (by decide) (by decide) (by decide)
       (by decide) (by decide)).2.2.2.2⟩

/-! ### Claim C6: the tracker reaches `range.end` -/

lemma mem_intRange (a b x : ℤ) : x ∈ intRange a b ↔ a ≤ x ∧ x < b := by
  unfold intRange
  simp only [List.mem_map, List.mem_range]
  constructor
  · rintro ⟨i, hi, rfl⟩
    omega
  · rintro ⟨h1, h2⟩
    exact ⟨(x - a).toNat, by omega, by omega⟩

lemma intRange_nodup (a b : ℤ) : (intRange a b).Nodup := by
  unfold intRange
  refine List.Nodup.map ?_ (List.nodup_range _)
  intro i j hij
  dsimp only at hij
  omega

lemma intRange_toFinset (a b : ℤ) : (intRange a b).toFinset = Finset.Ico a b := by
  ext x
  rw [List.mem_toFinset, mem_intRange, Finset.mem_Ico]

lemma add_fold_inv (a : ℤ) (P : Finset ℤ) (s : FindState) (now : Nat) (sd : ℤ)
    (s' : FindState) (r : Option (ℤ × ℤ))
    (hadd : s.add now sd = some (s', r))
    (hinv : FoldInv a P s) (ha : a ≤ sd) (hfresh : sd ∉ P) :
    FoldInv a (insert sd P) s' := by
  obtain ⟨hape, hunion, hpend⟩ := hinv
  have hsdp : sd ∉ s.pending_seeds := fun hc =>
    hfresh (hunion ▸ Finset.mem_union_left _ hc)
  have hsdi : sd ∉ Finset.Ico a s.progress_end := fun hc =>
    hfresh (hunion ▸ Finset.mem_union_right _ hc)
  have hsdge : s.progress_end ≤ sd := by
    by_contra hc
    exact hsdi (Finset.mem_Ico.2 ⟨ha, by omega⟩)
  rcases add_cases s now sd s' r hadd with ⟨hne, rfl, _⟩ | ⟨heq, _, hpe, hpd, _⟩
  · refine ⟨by simpa using hape, ?_, ?_⟩
    · show insert sd s.pending_seeds ∪ Finset.Ico a s.progress_end = insert sd P
      rw [Finset.insert_union, hunion]
    · intro x hx
      show s.progress_end < x
      rcases Finset.mem_insert.1 (by simpa using hx) with rfl | hx'
      · omega
      · exact hpend x hx'
  · have hE := advanceWhile_le s.pending_seeds (sd + 1)
    have hEnm := advanceWhile_snd_not_mem s.pending_seeds (sd + 1)
    have hrun := advanceWhile_run s.pending_seeds (sd + 1)
    refine ⟨by omega, ?_, ?_⟩
    · rw [hpd, hpe, advanceWhile_fst]
      ext x
      simp only [Finset.mem_union, Finset.mem_sdiff, Finset.mem_Ico, Finset.mem_insert]
      constructor
      · rintro (⟨hxp, hxni⟩ | ⟨hxa, hxE⟩)
        · right
          rw [← hunion]
          exact Finset.mem_union_left _ hxp
        · by_cases hxsd : x = sd
          · exact Or.inl hxsd
          · by_cases hxlt : x < sd
            · right
              rw [← hunion]
              exact Finset.mem_union_right _ (Finset.mem_Ico.2 ⟨hxa, by omega⟩)
            · right
              rw [← hunion]
              exact Finset.mem_union_left _ (hrun x (by omega) hxE)
      · rintro (rfl | hxP)
        · right
          constructor
          · omega
          · omega
        · rw [← hunion] at hxP
          rcases Finset.mem_union.1 hxP with hxp | hxi
          · by_cases hxrun : sd + 1 ≤ x ∧ x < (advanceWhile s.pending_seeds (sd + 1)).2
            · right
              omega
            · exact Or.inl ⟨hxp, hxrun⟩
          · right
            have := Finset.mem_Ico.1 hxi
            omega
    · intro x hx
      rw [hpd, advanceWhile_fst] at hx
      obtain ⟨hxp, hxni⟩ := Finset.mem_sdiff.1 hx
      have hx1 : s.progress_end < x := hpend x hxp
      have hx3 : x ≠ (advanceWhile s.pending_seeds (sd + 1)).2 :=
        fun hc => hEnm (hc ▸ hxp)
      simp only [Finset.mem_Ico, not_and, not_lt] at hxni
      have hxn2 : (advanceWhile s.pending_seeds (sd + 1)).2 ≤ x := hxni (by omega)
      rw [hpe]
      omega

lemma recordSeq_fold_inv (ops : List (Nat × ℤ)) :
    ∀ (a : ℤ) (P : Finset ℤ) (s sf : FindState) (ns : List (ℤ × ℤ)),
      recordSeq s ops = some (sf, ns) → FoldInv a P s →
      (∀ sd ∈ ops.map Prod.snd, a ≤ sd) →
      (ops.map Prod.snd).Nodup →
      (∀ sd ∈ ops.map Prod.snd, sd ∉ P) →
      FoldInv a (P ∪ (ops.map Prod.snd).toFinset) sf := by
  induction ops with
  | nil =>
    intro a P s sf ns h hinv _ _ _
    obtain ⟨rfl, rfl⟩ : s = sf ∧ ([] : List (ℤ × ℤ)) = ns := by
      simpa [recordSeq] using h
    simpa using hinv
  | cons op rest ih =>
    obtain ⟨now, sd0⟩ := op
    intro a P s sf ns h hinv hge hnd hfresh
    cases hadd : s.add now sd0 with
    | none =>
      simp only [recordSeq, hadd] at h
      exact Option.noConfusion h
    | some p =>
      obtain ⟨s1, r⟩ := p
      cases hrec2 : recordSeq s1 rest with
      | none =>
        simp only [recordSeq, hadd, hrec2] at h
        exact Option.noConfusion h
      | some q =>
        obtain ⟨sf', ns'⟩ := q
        simp only [recordSeq, hadd, hrec2, Option.some.injEq, Prod.mk.injEq] at h
        obtain ⟨rfl, rfl⟩ := h
        have hmap : (((now, sd0) :: rest).map Prod.snd) = sd0 :: rest.map Prod.snd := rfl
        rw [hmap, List.nodup_cons] at hnd
        obtain ⟨hsd0, hnd'⟩ := hnd
        have hinv1 : FoldInv a (insert sd0 P) s1 :=
          add_fold_inv a P s now sd0 s1 r hadd hinv (hge sd0 (by simp))
            (hfresh sd0 (by simp))
        have hres := ih a (insert sd0 P) s1 sf' ns' hrec2 hinv1
          (fun sd hsd => hge sd (by rw [hmap]; exact List.mem_cons_of_mem _ hsd))
          hnd'
          (fun sd hsd => by
            rw [Finset.mem_insert, not_or]
            exact ⟨fun hc => hsd0 (hc ▸ hsd),
              hfresh sd (by rw [hmap]; exact List.mem_cons_of_mem _ hsd)⟩)
        have hPeq : P ∪ ((((now, sd0) :: rest).map Prod.snd)).toFinset =
            insert sd0 P ∪ (rest.map Prod.snd).toFinset := by
          rw [hmap, List.toFinset_cons, Finset.union_insert, Finset.insert_union]
        rw [hPeq]
        exact hres

lemma perm_fold_pe (a b : ℤ) (ops : List (Nat × ℤ)) (s0 sf : FindState)
    (ns : List (ℤ × ℤ)) (hab : a ≤ b)
    (hperm : (ops.map Prod.snd).Perm (intRange a b))
    (hs0e : s0.progress_end = a) (hs0p : s0.pending_seeds = ∅)
    (hrec : recordSeq s0 ops = some (sf, ns)) :
    sf.progress_end = b ∧ sf.pending_seeds = ∅ := by
  have hinv0 : FoldInv a ∅ s0 := by
    refine ⟨by omega, ?_, ?_⟩
    · rw [hs0p, hs0e]
      simp
    · rw [hs0p]
      intro x hx
      simp at hx
  have hge : ∀ sd ∈ ops.map Prod.snd, a ≤ sd := fun sd hsd =>
    ((mem_intRange a b sd).1 (hperm.mem_iff.1 hsd)).1
  have hnd : (ops.map Prod.snd).Nodup := hperm.nodup_iff.2 (intRange_nodup a b)
  have hfin := recordSeq_fold_inv ops a ∅ s0 sf ns hrec hinv0 hge hnd (by simp)
  rw [Finset.empty_union, List.toFinset_eq_of_perm _ _ hperm, intRange_toFinset] at hfin
  obtain ⟨hape, hunion, hpend⟩ := hfin
  have hpeb : sf.progress_end = b := by
    by_contra hne
    rcases lt_or_gt_of_ne hne with hlt | hgt
    · have hm : sf.progress_end ∈ sf.pending_seeds ∪ Finset.Ico a sf.progress_end := by
        rw [hunion]
        exact Finset.mem_Ico.2 ⟨by omega, hlt⟩
      rcases Finset.mem_union.1 hm with hc | hc
      · exact absurd (hpend _ hc) (by omega)
      · exact absurd (Finset.mem_Ico.1 hc) (by omega)
    · have hm : b ∈ sf.pending_seeds ∪ Finset.Ico a sf.progress_end :=
        Finset.mem_union_right _ (Finset.mem_Ico.2 ⟨hab, hgt⟩)
      rw [hunion] at hm
      exact absurd (Finset.mem_Ico.1 hm) (by omega)
  refine ⟨hpeb, ?_⟩
  rw [Finset.eq_empty_iff_forall_not_mem]
  intro x hx
  have h1 := hpend x hx
  have h2 : x ∈ Finset.Ico a b := by
    rw [← hunion]
    exact Finset.mem_union_left _ hx
  have h3 := Finset.mem_Ico.1 h2
  omega

/-! ### Claim C6: the event pump -/

lemma pump_run (t ps pe : ℤ) :
    ∀ (body : List InternalMessage) (fin : ℤ),
      fin + (body.countP isTF : ℤ) + 1 = t →
      pump t ps pe fin (body ++ [.threadFinished]) =
        body.filterMap fwdFrame ++ [.done ps pe] := by
  intro body
  induction body with
  | nil =>
    intro fin hfin
    have ht : fin + 1 = t := by simpa using hfin
    simp [pump, ht]
  | cons m body' ih =>
    intro fin hfin
    cases m with
    | result s i =>
      show OutgoingMessage.result s i ::
          pump t ps pe fin (body' ++ [.threadFinished]) = _
      rw [ih fin (by simpa [List.countP_cons, isTF] using hfin)]
      rfl
    | progress a b =>
      show OutgoingMessage.progress a b ::
          pump t ps pe fin (body' ++ [.threadFinished]) = _
      rw [ih fin (by simpa [List.countP_cons, isTF] using hfin)]
      rfl
    | threadFinished =>
      have hc : (InternalMessage.threadFinished :: body').countP isTF =
          body'.countP isTF + 1 := by
        simp [List.countP_cons, isTF]
      rw [hc] at hfin
      have hne : ¬(fin + 1 = t) := by
        push_cast at hfin
        omega
      show (if fin + 1 = t then [OutgoingMessage.done ps pe]
            else pump t ps pe (fin + 1) (body' ++ [.threadFinished])) = _
      rw [if_neg hne, ih (fin + 1) (by push_cast at hfin ⊢; omega)]
      rfl

lemma countP_flatten_one : ∀ (S : List (List InternalMessage)),
    (∀ st ∈ S, st.countP isTF = 1) → S.flatten.countP isTF = S.length := by
  intro S
  induction S with
  | nil => intro _; simp
  | cons st S ih =>
    intro h
    rw [List.flatten_cons, List.countP_append, h st (List.mem_cons_self _ _),
      ih (fun x hx => h x (List.mem_cons_of_mem _ hx)), List.length_cons]
    omega

lemma perm_tag_partition : ∀ (W : Nat) (msgs : List (Nat × InternalMessage)),
    (∀ m ∈ msgs, m.1 < W) →
    (msgs.map Prod.snd).Perm
      ((List.range W).map
        (fun w => (msgs.filter (fun m => m.1 == w)).map Prod.snd)).flatten := by
  intro W
  induction W with
  | zero =>
    intro msgs htag
    cases msgs with
    | nil => simp
    | cons m rest => exact absurd (htag m (List.mem_cons_self _ _)) (by omega)
  | succ W ih =>
    intro msgs htag
    have hsplit := List.filter_append_perm (fun m => m.1 == W) msgs
    have h1 : (msgs.map Prod.snd).Perm
        ((msgs.filter (fun m => m.1 == W)).map Prod.snd ++
          (msgs.filter (fun m => !(m.1 == W))).map Prod.snd) := by
      have hp := (hsplit.symm).map Prod.snd
      simpa [List.map_append] using hp
    have htag' : ∀ m ∈ msgs.filter (fun m => !(m.1 == W)), m.1 < W := by
      intro m hm
      have hmem := List.mem_of_mem_filter hm
      have hp := List.of_mem_filter hm
      have hne : m.1 ≠ W := by simpa using hp
      have hlt := htag m hmem
      omega
    have h2 := ih (msgs.filter (fun m => !(m.1 == W))) htag'
    have h3 : ((List.range W).map
        (fun w => ((msgs.filter (fun m => !(m.1 == W))).filter
          (fun m => m.1 == w)).map Prod.snd)) =
        (List.range W).map
          (fun w => (msgs.filter (fun m => m.1 == w)).map Prod.snd) := by
      apply List.map_congr_left
      intro w hw
      have hwW : w < W := List.mem_range.1 hw
      rw [List.filter_filter]
      congr 1
      apply List.filter_congr
      intro m _
      by_cases hmw : m.1 = w
      · have : ¬(m.1 = W) := by omega
        simp [hmw, this]
        omega
      · simp [hmw]
    rw [h3] at h2
    rw [List.range_succ, List.map_append, List.flatten_append]
    simp only [List.map_cons, List.map_nil, List.flatten_cons, List.flatten_nil,
      List.append_nil]
    exact h1.trans (List.Perm.trans List.perm_append_comm (h2.append_right _))

lemma range_map_getD : ∀ (L : List (List InternalMessage)),
    (List.range L.length).map (fun w => L.getD w []) = L := by
  intro L
  induction L with
  | nil => simp
  | cons st L ih =>
    rw [List.length_cons, List.range_succ_eq_map, List.map_cons, List.map_map]
    have hcomp : ((fun w => (st :: L).getD w []) ∘ Nat.succ) =
        fun w => L.getD w [] := by
      funext w
      simp [Function.comp]
    rw [hcomp, ih]
    rfl

lemma interleaving_perm (streams : List (List InternalMessage))
    (msgs : List (Nat × InternalMessage))
    (htag : ∀ m ∈ msgs, m.1 < streams.length)
    (hfil : ∀ w : Nat, w < streams.length →
      (msgs.filter (fun m => m.1 == w)).map Prod.snd = streams.getD w []) :
    (msgs.map Prod.snd).Perm streams.flatten := by
  have h1 := perm_tag_partition streams.length msgs htag
  have h2 : ((List.range streams.length).map
      (fun w => (msgs.filter (fun m => m.1 == w)).map Prod.snd)) =
      (List.range streams.length).map (fun w => streams.getD w []) := by
    apply List.map_congr_left
    intro w hw
    exact hfil w (List.mem_range.1 hw)
  rw [h2, range_map_getD] at h1
  exact h1

lemma filtered_getLast (x : Nat × InternalMessage) :
    ∀ (l : List (Nat × InternalMessage)), l.getLast? = some x →
      (l.filter (fun m => m.1 == x.1)).getLast? = some x := by
  intro l
  induction l with
  | nil => intro h; simp at h
  | cons a l ih =>
    intro h
    cases l with
    | nil =>
      obtain rfl : a = x := by simpa using h
      simp
    | cons b l' =>
      rw [List.getLast?_cons_cons] at h
      have ihh := ih h
      rw [List.filter_cons]
      split
      · have hne : (List.filter (fun m => m.1 == x.1) (b :: l')) ≠ [] := by
          intro hc
          rw [hc] at ihh
          simp at ihh
        obtain ⟨c, rest, hcr⟩ := List.exists_cons_of_ne_nil hne
        rw [hcr, List.getLast?_cons_cons, ← hcr]
        exact ihh
      · exact ihh

lemma getLast_map_snd :
    ∀ (l : List (Nat × InternalMessage)) (x : Nat × InternalMessage),
      l.getLast? = some x → (l.map Prod.snd).getLast? = some x.2 := by
  intro l
  induction l with
  | nil => intro x h; simp at h
  | cons a l ih =>
    intro x h
    cases l with
    | nil =>
      obtain rfl : a = x := by simpa using h
      simp
    | cons b l' =>
      rw [List.getLast?_cons_cons] at h
      have hh := ih x h
      rw [List.map_cons, List.map_cons, List.getLast?_cons_cons, ← List.map_cons]
      exact hh

lemma merged_ends_tf (streams : List (List InternalMessage))
    (msgs : List (Nat × InternalMessage))
    (htag : ∀ m ∈ msgs, m.1 < streams.length)
    (hfil : ∀ w : Nat, w < streams.length →
      (msgs.filter (fun m => m.1 == w)).map Prod.snd = streams.getD w [])
    (hend : ∀ st ∈ streams, st.getLast? = some InternalMessage.threadFinished)
    (hne : msgs ≠ []) :
    (msgs.map Prod.snd).getLast? = some InternalMessage.threadFinished := by
  obtain ⟨x, hx⟩ : ∃ x, msgs.getLast? = some x := by
    cases hxx : msgs.getLast? with
    | none =>
      have hs := (List.getLast?_isSome (l := msgs)).2 hne
      rw [hxx] at hs
      simp at hs
    | some x => exact ⟨x, rfl⟩
  have hxm : x ∈ msgs := List.mem_of_getLast?_eq_some hx
  have htx : x.1 < streams.length := htag x hxm
  have h1 := filtered_getLast x msgs hx
  have h2 := getLast_map_snd _ x h1
  rw [hfil x.1 htx] at h2
  have h3 : streams.getD x.1 [] ∈ streams := by
    rw [List.getD_eq_getElem _ _ htx]
    exact List.getElem_mem _
  have h4 := hend _ h3
  rw [h4] at h2
  have hx2 : x.2 = InternalMessage.threadFinished := (Option.some.inj h2).symm
  rw [getLast_map_snd msgs x hx, hx2]

lemma pump_output (W : Nat) (hW : 1 ≤ W) (ps pe : ℤ)
    (streams : List (List InternalMessage)) (hWlen : streams.length = W)
    (hend : ∀ st ∈ streams,
      st.countP isTF = 1 ∧ st.getLast? = some InternalMessage.threadFinished)
    (msgs : List (Nat × InternalMessage))
    (htag : ∀ m ∈ msgs, m.1 < streams.length)
    (hfil : ∀ w : Nat, w < streams.length →
      (msgs.filter (fun m => m.1 == w)).map Prod.snd = streams.getD w []) :
    ∃ body, msgs.map Prod.snd = body ++ [InternalMessage.threadFinished] ∧
      pump (W : ℤ) ps pe 0 (msgs.map Prod.snd) =
        body.filterMap fwdFrame ++ [.done ps pe] := by
  have hne : msgs ≠ [] := by
    intro hc
    have hw0 : (0 : Nat) < streams.length := by omega
    have h0 := hfil 0 hw0
    rw [hc] at h0
    simp only [List.filter_nil, List.map_nil] at h0
    have hmem : streams.getD 0 [] ∈ streams := by
      rw [List.getD_eq_getElem _ _ hw0]
      exact List.getElem_mem _
    have hcount := (hend _ hmem).1
    rw [← h0] at hcount
    simp at hcount
  have htf := merged_ends_tf streams msgs htag hfil (fun st hst => (hend st hst).2) hne
  obtain ⟨body, hbody⟩ := List.getLast?_eq_some_iff.1 htf
  have hperm := interleaving_perm streams msgs htag hfil
  have hcnt : (msgs.map Prod.snd).countP isTF = W := by
    rw [hperm.countP_eq]
    rw [countP_flatten_one streams (fun st hst => (hend st hst).1), hWlen]
  rw [hbody, List.countP_append] at hcnt
  have hone : (([InternalMessage.threadFinished] :
      List InternalMessage)).countP isTF = 1 := by
    simp [List.countP_cons, isTF]
  rw [hone] at hcnt
  refine ⟨body, hbody, ?_⟩
  rw [hbody]
  apply pump_run
  omega

/-- Claim C6 (confirmed): a search in which Stop is never issued.  Every
worker fully processes its disjoint batches (claim C10's partition), so the
serialized sequence of `add` calls records each seed of `[a, b)` exactly
once — some permutation of `intRange a b` (`hops`) — and the tracker ends
with `progress_end = b` and empty pending, making the Done frame's end
equal `range.end`.  On the channel side, each worker's message stream ends
with its single ThreadFinished, the streams together carry one Result per
matching seed (`hres`, from claim C10's disjoint cover plus the matcher
evaluating every seed exactly once), and the pump consumes an arbitrary
FIFO interleaving `msgs` of the streams: its output ends with the single
Done frame `{start: final progress_start, end: b}`, contains no other Done
frame, and its Result frames — all preceding Done — carry exactly the
matching seeds, each exactly once. -/
theorem c6_no_cancellation_exactness
    (m : ℤ → List Nat) (a b : ℤ) (hab : a ≤ b)
    (s0 sf : FindState) (ops : List (Nat × ℤ)) (ns : List (ℤ × ℤ))
    (hs0e : s0.progress_end = a) (hs0p : s0.pending_seeds = ∅)
    (hops : (ops.map Prod.snd).Perm (intRange a b))
    (hrec : recordSeq s0 ops = some (sf, ns))
    (W : Nat) (hW : 1 ≤ W)
    (streams : List (List InternalMessage)) (hWlen : streams.length = W)
    (hend : ∀ st ∈ streams,
      st.countP isTF = 1 ∧ st.getLast? = some InternalMessage.threadFinished)
    (hres : (streams.flatten.filterMap msgResultSeed).Perm (seedsMatching m a b))
    (msgs : List (Nat × InternalMessage))
    (htag : ∀ x ∈ msgs, x.1 < streams.length)
    (hfil : ∀ w : Nat, w < streams.length →
      (msgs.filter (fun x => x.1 == w)).map Prod.snd = streams.getD w []) :
    sf.progress_end = b ∧
    (pump (W : ℤ) sf.progress_start sf.progress_end 0 (msgs.map Prod.snd)).getLast?
      = some (.done sf.progress_start b) ∧
    (pump (W : ℤ) sf.progress_start sf.progress_end 0
      (msgs.map Prod.snd)).countP isDone = 1 ∧
    ((pump (W : ℤ) sf.progress_start sf.progress_end 0
        (msgs.map Prod.snd)).filterMap frameResultSeed).Perm
      (seedsMatching m a b) := by
  obtain ⟨hpeb, _⟩ := perm_fold_pe a b ops s0 sf ns hab hops hs0e hs0p hrec
  obtain ⟨body, hbody, hout⟩ := pump_output W hW sf.progress_start sf.progress_end
    streams hWlen hend msgs htag hfil
  refine ⟨hpeb, ?_, ?_, ?_⟩
  · rw [hout, List.getLast?_concat, hpeb]
  · rw [hout, List.countP_append]
    have hz : (body.filterMap fwdFrame).countP isDone = 0 := by
      rw [List.countP_eq_zero]
      intro fr hfr
      obtain ⟨msg, hmsg, hf⟩ := List.mem_filterMap.1 hfr
      cases msg with
      | result s i =>
        obtain rfl : OutgoingMessage.result s i = fr := by simpa [fwdFrame] using hf
        simp [isDone]
      | progress x y =>
        obtain rfl : OutgoingMessage.progress x y = fr := by simpa [fwdFrame] using hf
        simp [isDone]
      | threadFinished => simp [fwdFrame] at hf
    rw [hz]
    simp [List.countP_cons, isDone]
  · have h1 : (pump (W : ℤ) sf.progress_start sf.progress_end 0
        (msgs.map Prod.snd)).filterMap frameResultSeed =
        body.filterMap msgResultSeed := by
      rw [hout, List.filterMap_append]
      have h2 : (([OutgoingMessage.done sf.progress_start sf.progress_end] :
          List OutgoingMessage)).filterMap frameResultSeed = [] := rfl
      rw [h2, List.append_nil, List.filterMap_filterMap]
      have hfun : (fun msg => (fwdFrame msg).bind frameResultSeed) = msgResultSeed := by
        funext msg
        cases msg <;> rfl
      rw [hfun]
    have h3 : body.filterMap msgResultSeed =
        (msgs.map Prod.snd).filterMap msgResultSeed := by
      rw [hbody, List.filterMap_append]
      simp [msgResultSeed]
    rw [h1, h3]
    exact ((interleaving_perm streams msgs htag hfil).filterMap msgResultSeed).trans hres

theorem c6_no_cancellation_exactness_witness :
    recordSeq ⟨0, 0, ∅, 1, 1, 0⟩ [(0, 0), (0, 1)] =
      some (⟨0, 2, ∅, 1, 1, 0⟩, []) ∧
    FindState.progress_end ⟨0, 2, ∅, 1, 1, 0⟩ = 2 ∧
    ((pump ((1 : Nat) : ℤ) (FindState.progress_start ⟨0, 2, ∅, 1, 1, 0⟩)
        (FindState.progress_end ⟨0, 2, ∅, 1, 1, 0⟩) 0
        (([((0 : Nat), InternalMessage.result 1 [0]),
            (0, InternalMessage.threadFinished)]).map Prod.snd)).filterMap
      frameResultSeed).Perm
      (seedsMatching (fun k => if k = 1 then [0] else []) 0 2) := by
  have happ := c6_no_cancellation_exactness (fun k => if k = 1 then [0] else []) 0 2
    (by decide) ⟨0, 0, ∅, 1, 1, 0⟩ ⟨0, 2, ∅, 1, 1, 0⟩ [(0, 0), (0, 1)] []
    (by decide) (by decide) (by decide) (by decide) 1 (by decide)
    [[InternalMessage.result 1 [0], InternalMessage.threadFinished]] (by decide)
    (by decide) (by decide)
    [((0 : Nat), InternalMessage.result 1 [0]), (0, InternalMessage.threadFinished)]
    (by decide)
    (by
      intro w hw
      have hw1 : w < 1 := by simpa using hw
      have hw0 : w = 0 := by omega
      subst hw0
      decide)
  exact ⟨by decide, happ.1, happ.2.2.2⟩
